import Mathlib

/-!
# Verification of the llynx enabled-set reconciliation engine

Shallow embedding of `src/enabled.rs` (path codec, aggregate error
collector, settings document model, enable/disable reconciler).

Modelling conventions:
* Paths are UTF-8 strings handled with Unix `std::path` semantics:
  a path is parsed into components (`RootDir`, `CurDir`, `ParentDir`,
  `Normal`), empty segments are dropped, `"."` segments are dropped
  except at the very beginning of a rootless path, `".."` is kept.
  `Path::parent`, `Path::file_name`, `Path::is_relative`,
  `Path::starts_with`, `Path::ends_with` are modelled on component
  lists exactly as documented for `std::path::Path`.
* Rust `expect` panics (process aborts) are modelled as explicit
  failure values (`Option.none`, or the `PErr.panic` constructor) so
  that reachability of the panicking branches can be stated; a panic
  is a process abort in the original program, not an `Err` return.
* The `to_str` UTF-8 failure branches of the source can never fire in
  the model because every path already originates from a Rust
  `String` (the JSON settings values), exactly as in the program.
* The installed-registry collaborator (`list_installed`, excluded by
  the spec and replaced by the contract of spec §6) is a parameter:
  a list of `Addon`s whose `location` is the installation directory.
* File-system state for the settings file is the `SettingsFile`
  inductive: missing file, empty (or comment-only) file, a parsed
  JSON object, a syntactically malformed file, or a non-NotFound I/O
  failure.
-/

namespace Llynx

/-- A component of a Unix path, as produced by `std::path::Components`. -/
inductive Component where
  | rootDir
  | curDir
  | parentDir
  | normal (name : String)
deriving DecidableEq

/-- Split a character list at `'/'` boundaries (keeping empty chunks). -/
def splitSlash : List Char → List (List Char)
  | [] => [[]]
  | c :: cs =>
    if c = '/' then [] :: splitSlash cs
    else
      match splitSlash cs with
      | [] => [[c]]
      | r :: rs => (c :: r) :: rs

/-- A non-`"."` chunk becomes a `ParentDir` or `Normal` component. -/
def toComp (p : List Char) : Component :=
  if p = ['.', '.'] then Component.parentDir else Component.normal (String.mk p)

/-- Turn the non-empty chunks of a path into components: `"."` chunks are
dropped except when they are the very first chunk of a rootless path
(the `Bool` argument tracks that position). -/
def normParts : Bool → List (List Char) → List Component
  | _, [] => []
  | first, p :: ps =>
    if p = ['.'] then
      (if first then [Component.curDir] else []) ++ normParts false ps
    else toComp p :: normParts false ps

/-- `Path::has_root` on Unix: the string starts with `'/'`. -/
def hasRootB (s : String) : Bool := s.toList.head? == some '/'

/-- `Path::components` on Unix. -/
def components (s : String) : List Component :=
  (if hasRootB s then [Component.rootDir] else [])
    ++ normParts (!hasRootB s) ((splitSlash s.toList).filter (fun p => p ≠ []))

/-- `Path::parent`, on component lists: `none` for the empty path and the
root, otherwise the path without its last component. -/
def pathParent (cs : List Component) : Option (List Component) :=
  if cs = [] ∨ cs = [Component.rootDir] then none else some cs.dropLast

/-- `Path::file_name`, on component lists: the final component when it is
a `Normal` one, `none` otherwise (in particular for `..`). -/
def fileName (cs : List Component) : Option String :=
  match cs.getLast? with
  | some (Component.normal n) => some n
  | _ => none

/-- `Path::is_relative` on Unix (`!has_root`). -/
def isRelativePath (s : String) : Bool := !hasRootB s

/-- `Path::starts_with`: component-wise prefix. -/
def startsWithPath (s base : String) : Bool :=
  (components base).isPrefixOf (components s)

/-- `Path::ends_with`: component-wise suffix. -/
def endsWithPath (s child : String) : Bool :=
  (components child).isSuffixOf (components s)

/-- `Path::join("types")` as performed by `get_addon_path`:
`PathBuf::push` adds a separator unless the path is empty or already
ends with one. -/
def join_types (location : String) : String :=
  if location.toList = [] then "types"
  else if location.toList.getLast? = some '/' then location ++ "types"
  else location ++ "/" ++ "types"

/-- The `Addon` struct of `main.rs`. -/
structure Addon where
  name : String
  version : String
  location : Option String
deriving DecidableEq

/-- The `LIB_SETTINGS_KEY` constant. -/
def LIB_SETTINGS_KEY : String := "Lua.workspace.library"

/-- The `addons_matcher` string `format!("{tree}/lib/luarocks")` of
`list_enabled`. -/
def addonsMatcher (tree : String) : String := tree ++ "/lib/luarocks"

/-- The acceptance filter of `list_enabled`:
`path.is_relative() && path.starts_with(&addons_matcher) && path.ends_with("types")`. -/
def accepts (tree s : String) : Bool :=
  isRelativePath s && startsWithPath s (addonsMatcher tree) && endsWithPath s "types"

/-- The decode closure of `list_enabled`: `version = path.parent()`,
`name = version.parent()`, addon fields from `file_name()` of those two
directories, `location` the original string.  `none` models the panic
of one of the four `expect` calls (the `to_str` UTF-8 error branch is
unreachable for string input, see module comment). -/
def decode (s : String) : Option Addon :=
  match pathParent (components s) with
  | none => none
  | some version =>
    match pathParent version with
    | none => none
    | some name =>
      match fileName name, fileName version with
      | some n, some v => some { name := n, version := v, location := some s }
      | _, _ => none

/-- The encoding step of the claim C4 composition: append a `types`
segment to the addon's `location` (the `location.join("types")` of
`get_addon_path`); `none` when the addon has no location. -/
def encodeAddonPath (a : Addon) : Option String := a.location.map join_types

/-- A plain path segment: non-empty, without separators, and neither
`"."` nor `".."` (so it parses to a single `Normal` component). -/
def segOk (s : String) : Prop :=
  s.toList ≠ [] ∧ '/' ∉ s.toList ∧ s.toList ≠ ['.'] ∧ s.toList ≠ ['.', '.']

instance (s : String) : Decidable (segOk s) := by
  unfold segOk
  infer_instance

/-! ## Aggregate error collector (`AggregateError`) -/

/-- The error side of `AggregateError::from_results`: either a single
underlying error returned unwrapped (the `single` injection is only the
typing of "returned as-is"), or an `AggregateError` wrapping a list of
errors. -/
inductive CollectedError (E : Type) where
  | single (e : E)
  | aggregate (errs : List E)
deriving DecidableEq

/-- Extract the success of a result (`Result::ok`). -/
def exceptOk {E T : Type} : Except E T → Option T
  | .ok t => some t
  | .error _ => none

/-- Extract the error of a result (`Result::err`). -/
def exceptErr {E T : Type} : Except E T → Option E
  | .ok _ => none
  | .error e => some e

/-- `AggregateError::from_results`: partition the results, then return
the successes when no error occurred, the sole error unwrapped when
exactly one occurred, and an aggregate of all errors otherwise. -/
def from_results {E T : Type} (results : List (Except E T)) :
    Except (CollectedError E) (List T) :=
  let oks := (results.partition Except.isOk).1
  let errs := (results.partition Except.isOk).2
  match errs.filterMap exceptErr with
  | [] => .ok (oks.filterMap exceptOk)
  | [e] => .error (.single e)
  | es => .error (.aggregate es)

/-- The successes of a result list, in original order. -/
def oksOf {E T : Type} (results : List (Except E T)) : List T :=
  results.filterMap exceptOk

/-- The errors of a result list, in encountered order. -/
def errsOf {E T : Type} (results : List (Except E T)) : List E :=
  results.filterMap exceptErr

/-- The `Display` impl of `AggregateError`: `writeln!` every underlying
error's rendering in order (each rendering is followed by a newline).
`render` stands for the `Display` of the underlying `anyhow::Error`s. -/
def aggregate_display {E : Type} (render : E → String) : List E → String
  | [] => ""
  | e :: rest => render e ++ "\n" ++ aggregate_display render rest

/-- Joining strings by newlines (no trailing newline): the reading of
the spec sentence "joined by newlines" that the counterexample below
compares against. -/
def joinNewlines : List String → String
  | [] => ""
  | [a] => a
  | a :: rest => a ++ "\n" ++ joinNewlines rest

/-- The `Error::source` impl of `AggregateError`: `Some(&self.0[0])`
(indexing panics on an empty list, hence the `Option` through `[0]?`). -/
def aggregate_source {E : Type} (errs : List E) : Option E := errs[0]?

/-! ## Settings document model (`VSCodeSettings`) -/

/-- A parsed JSON value (`serde_json::Value`, with numbers simplified
to integers, which the recognized field never contains anyway). -/
inductive Json where
  | null
  | bool (b : Bool)
  | num (n : Int)
  | str (s : String)
  | arr (elems : List Json)
  | obj (fields : List (String × Json))

/-- The `VSCodeSettings` struct: the recognized
`Lua.workspace.library` field, plus every other field of the document
captured verbatim by the `#[serde(flatten)]` map. -/
structure VSCodeSettings where
  library : Option (List String)
  rest : List (String × Json)

/-- The observable state of the settings file for one operation:
missing (NotFound), empty or comment-only (parses to no JSON value),
a JSON object with the given fields, syntactically malformed JSONC
(or a non-object document), or a non-NotFound I/O failure. -/
inductive SettingsFile where
  | missing
  | empty
  | doc (fields : List (String × Json))
  | malformed
  | ioError

/-- Errors of the reconciler pipeline.  `panic` models a Rust `expect`
failure, i.e. a process abort rather than an `Err` return. -/
inductive PErr where
  | ioError
  | parseError
  | schemaError
  | notInstalled (name : String)
  | panic (msg : String)
deriving DecidableEq

/-- Deserializing a JSON array into `Vec<String>`: every element must
be a string. -/
def asStringList : List Json → Option (List String)
  | [] => some []
  | .str s :: rest => (asStringList rest).map (s :: ·)
  | _ => none

/-- Serde deserialization of the `library: Option<Vec<String>>` field:
absent or `null` gives `None`; an array of strings gives `Some`; any
other value is a type error ("while compiling" in the source). -/
def parseLibraryField : Option Json → Except PErr (Option (List String))
  | none => .ok none
  | some .null => .ok none
  | some (.arr xs) =>
    match asStringList xs with
    | some l => .ok (some l)
    | none => .error .schemaError
  | some _ => .error .schemaError

/-- Serde deserialization of a JSON object into `VSCodeSettings`: the
recognized key feeds `library`, every other field lands verbatim in the
flattened `rest` map. -/
def parseSettings (fields : List (String × Json)) : Except PErr VSCodeSettings :=
  match parseLibraryField (List.lookup LIB_SETTINGS_KEY fields) with
  | .error e => .error e
  | .ok lib =>
    .ok { library := lib, rest := fields.filter (fun kv => kv.1 != LIB_SETTINGS_KEY) }

/-- Serde serialization of `VSCodeSettings` back to a JSON object: the
declared `library` field first (`None` would serialize as `null`), then
the flattened `rest` fields. -/
def serializeSettings (s : VSCodeSettings) : List (String × Json) :=
  (LIB_SETTINGS_KEY,
    match s.library with
    | none => Json.null
    | some l => Json.arr (l.map Json.str)) :: s.rest

/-- `update_library`: read-or-default, parse, apply `f` to the library
list (defaulting to the empty list), serialize.  The returned object is
the document written back to the settings file. -/
def update_library (file : SettingsFile) (f : List String → List String) :
    Except PErr (List (String × Json)) :=
  match file with
  | .ioError => .error .ioError
  | .malformed => .error .parseError
  | .missing => .ok (serializeSettings { library := some (f []), rest := [] })
  | .empty => .ok (serializeSettings { library := some (f []), rest := [] })
  | .doc fields =>
    match parseSettings fields with
    | .error e => .error e
    | .ok st =>
      .ok (serializeSettings { st with library := some (f (st.library.getD [])) })

/-- Input states in which the recognized library field is absent: the
settings file is missing, it is empty, or the parsed document has no
`Lua.workspace.library` key. -/
def libFieldAbsent : SettingsFile → Prop
  | .missing => True
  | .empty => True
  | .doc fields => List.lookup LIB_SETTINGS_KEY fields = none
  | .malformed => False
  | .ioError => False

/-! ## Enabled-set reconciler -/

/-- Substring containment, `str::contains` for string needles. -/
def containsSub : List Char → List Char → Bool
  | hay, needle =>
    needle.isPrefixOf hay ||
      match hay with
      | [] => false
      | _ :: rest => containsSub rest needle

/-- The optional `--filter` of `list_enabled`:
`addon.name.contains(&fil)`. -/
def applyNameFilter (filter : Option String) (addons : List Addon) : List Addon :=
  match filter with
  | some fil => addons.filter (fun a => containsSub a.name.toList fil.toList)
  | none => addons

/-- Decode every entry in order; `none` as soon as one entry panics.
In the source the per-entry `Result`s are collected with
`AggregateError::from_results`, but the only `Err` branch (`to_str`
UTF-8 failure) is unreachable for string input, so every reachable
per-entry outcome is `Ok` and collection returns them in order. -/
def decodeAll : List String → Option (List Addon)
  | [] => some []
  | s :: rest =>
    match decode s with
    | none => none
    | some a => (decodeAll rest).map (a :: ·)

/-- The core of `list_enabled` once a library list is in hand: keep the
entries accepted by the path codec, decode them all, then apply the
name filter. -/
def listFromLibrary (tree : String) (library : List String)
    (filter : Option String) : Except PErr (List Addon) :=
  match decodeAll (library.filter (fun s => accepts tree s)) with
  | none => .error (.panic "directory starts with addons_matcher")
  | some addons => .ok (applyNameFilter filter addons)

/-- `list_enabled`: missing file, empty file, and absent recognized
field all give the empty list without error; reading and parsing
failures propagate. -/
def listEnabled (tree : String) (file : SettingsFile)
    (filter : Option String) : Except PErr (List Addon) :=
  match file with
  | .missing => .ok []
  | .empty => .ok []
  | .ioError => .error .ioError
  | .malformed => .error .parseError
  | .doc fields =>
    match parseSettings fields with
    | .error e => .error e
    | .ok st =>
      match st.library with
      | none => .ok []
      | some lib => listFromLibrary tree lib filter

/-- `get_addon_path`: resolve `name` in the installed-registry response
(`lookup`, the spec §6 collaborator), fail with the "not installed"
error when absent, and append a `types` segment to the resolved
location.  The `into_string` UTF-8 branch is unreachable for string
locations. -/
def get_addon_path (lookup : List Addon) (name : String) : Except PErr String :=
  match lookup.find? (fun a => a.name == name) with
  | none => .error (.notInstalled name)
  | some a =>
    match a.location with
    | none => .error (.panic "installed addons always have a location")
    | some loc => .ok (join_types loc)

/-- `enable_in_library`: append the path to the end of the list. -/
def enable_in_library (path : String) (library : List String) : List String :=
  library ++ [path]

/-- `disable_in_library`: remove every entry equal to the path. -/
def disable_in_library (path : String) (library : List String) : List String :=
  library.filter (fun loc => loc != path)

/-- `enable`, at the level of the library list it reads and writes:
no-op when an addon with that exact name is already enabled, otherwise
resolve and append. -/
def enableL (tree : String) (lookup : List Addon) (library : List String)
    (name : String) : Except PErr (List String) :=
  match listFromLibrary tree library (some name) with
  | .error e => .error e
  | .ok addons =>
    if addons.any (fun a => a.name == name) then .ok library
    else
      match get_addon_path lookup name with
      | .error e => .error e
      | .ok path => .ok (enable_in_library path library)

/-- `disable`, at the level of the library list it reads and writes;
the guard is the source's `any(|addon| addon.name != name)`. -/
def disableL (tree : String) (lookup : List Addon) (library : List String)
    (name : String) : Except PErr (List String) :=
  match listFromLibrary tree library (some name) with
  | .error e => .error e
  | .ok addons =>
    if addons.any (fun a => a.name != name) then .ok library
    else
      match get_addon_path lookup name with
      | .error e => .error e
      | .ok path => .ok (disable_in_library path library)

/-! ## Lemmas about the path model -/

theorem splitSlash_ne_nil (cs : List Char) : splitSlash cs ≠ [] := by
  induction cs with
  | nil => simp [splitSlash]
  | cons c cs ih =>
    by_cases h : c = '/'
    · simp [splitSlash, h]
    · simp only [splitSlash, if_neg h]
      cases hs : splitSlash cs with
      | nil => simp
      | cons r rs => simp

theorem splitSlash_append (xs ys : List Char) :
    splitSlash (xs ++ '/' :: ys) = splitSlash xs ++ splitSlash ys := by
  induction xs with
  | nil => simp [splitSlash]
  | cons c xs ih =>
    by_cases h : c = '/'
    · simp [splitSlash, h, ih]
    · simp only [List.cons_append, splitSlash, if_neg h, List.append_eq]
      rw [ih]
      cases hs : splitSlash xs with
      | nil => exact absurd hs (splitSlash_ne_nil xs)
      | cons r rs => simp

theorem splitSlash_no_slash (xs : List Char) (h : '/' ∉ xs) : splitSlash xs = [xs] := by
  induction xs with
  | nil => rfl
  | cons c cs ih =>
    have hc : ¬c = '/' := fun hc => h (hc ▸ List.mem_cons_self c cs)
    have hcs : '/' ∉ cs := fun hm => h (List.mem_cons_of_mem c hm)
    simp only [splitSlash, if_neg hc, ih hcs]

theorem getLast?_append_ne {α : Type} (xs ys : List α) (h : ys ≠ []) :
    (xs ++ ys).getLast? = ys.getLast? := by
  rw [List.getLast?_append, List.getLast?_eq_getLast ys h]
  simp

theorem normParts_eq_map (qs : List (List Char)) (h : ∀ q ∈ qs, q ≠ ['.']) :
    ∀ b, normParts b qs = qs.map toComp := by
  induction qs with
  | nil => intro b; rfl
  | cons q qs ih =>
    intro b
    have hq : q ≠ ['.'] := h q (by simp)
    simp only [normParts, if_neg hq, List.map_cons]
    rw [ih (fun q hq => h q (by simp [hq]))]

theorem normParts_append (ps qs : List (List Char)) (h : ∀ q ∈ qs, q ≠ ['.']) :
    ∀ b, normParts b (ps ++ qs) = normParts b ps ++ qs.map toComp := by
  induction ps with
  | nil => intro b; simpa using normParts_eq_map qs h b
  | cons p ps ih =>
    intro b
    by_cases hp : p = ['.']
    · simp only [List.cons_append, normParts, if_pos hp, List.append_eq, ih,
        List.append_assoc]
    · simp only [List.cons_append, normParts, if_neg hp, List.append_eq, ih]

theorem rootDir_not_mem_normParts (ps : List (List Char)) :
    ∀ b, Component.rootDir ∉ normParts b ps := by
  induction ps with
  | nil => intro b; simp [normParts]
  | cons p ps ih =>
    intro b
    by_cases hp : p = ['.']
    · simp only [normParts, if_pos hp]
      intro hmem
      rcases List.mem_append.mp hmem with h1 | h1
      · cases b <;> simp_all
      · exact ih false h1
    · simp only [normParts, if_neg hp, List.mem_cons]
      rintro (h1 | h1)
      · unfold toComp at h1
        split at h1 <;> simp_all
      · exact ih false h1

theorem curDir_not_mem_normParts_false (ps : List (List Char)) :
    Component.curDir ∉ normParts false ps := by
  induction ps with
  | nil => simp [normParts]
  | cons p ps ih =>
    by_cases hp : p = ['.']
    · simpa [normParts, if_pos hp] using ih
    · simp only [normParts, if_neg hp, List.mem_cons]
      rintro (h1 | h1)
      · unfold toComp at h1
        split at h1 <;> simp_all
      · exact ih h1

theorem curDir_not_mem_components_tail (s : String) :
    Component.curDir ∉ (components s).tail := by
  unfold components
  cases hr : hasRootB s with
  | true => simpa using curDir_not_mem_normParts_false _
  | false =>
    simp only [Bool.false_eq_true, if_false, Bool.not_false, List.nil_append]
    cases hps : (splitSlash s.toList).filter (fun p => p ≠ []) with
    | nil => simp [normParts]
    | cons p ps =>
      by_cases hp : p = ['.']
      · simpa [normParts, if_pos hp] using curDir_not_mem_normParts_false ps
      · simpa [normParts, if_neg hp] using curDir_not_mem_normParts_false ps

theorem rootDir_not_mem_components (s : String) (h : hasRootB s = false) :
    Component.rootDir ∉ components s := by
  unfold components
  rw [h]
  simpa using rootDir_not_mem_normParts _ true

theorem components_head_rootDir (s : String) :
    (components s).head? = some Component.rootDir ↔ hasRootB s = true := by
  constructor
  · intro h
    by_contra hr
    have hr' : hasRootB s = false := by simpa using hr
    exact rootDir_not_mem_components s hr' (List.mem_of_mem_head? h)
  · intro h
    unfold components
    rw [h]
    simp

/-- The addons matcher always parses to some components followed by
`lib` and `luarocks`. -/
theorem matcher_decomp (tree : String) :
    ∃ zs, components (addonsMatcher tree)
      = zs ++ [Component.normal "lib", Component.normal "luarocks"] := by
  refine ⟨(if hasRootB (addonsMatcher tree) then [Component.rootDir] else [])
    ++ normParts (!hasRootB (addonsMatcher tree))
        ((splitSlash tree.toList).filter (fun p => p ≠ [])), ?_⟩
  unfold components
  rw [List.append_assoc]
  congr 1
  have h1 : (addonsMatcher tree).toList = tree.toList ++ '/' :: "lib/luarocks".toList := by
    simp [addonsMatcher, String.toList]
  rw [h1, splitSlash_append, List.filter_append]
  have h2 : (splitSlash "lib/luarocks".toList).filter (fun p => p ≠ [])
      = [['l', 'i', 'b'], ['l', 'u', 'a', 'r', 'o', 'c', 'k', 's']] := by rfl
  rw [h2, normParts_append _ _ (by decide)]
  rfl

theorem fileName_concat (cs : List Component) (n : String) :
    fileName (cs ++ [Component.normal n]) = some n := by
  simp [fileName, List.getLast?_concat]

theorem pathParent_of_concat (cs : List Component)
    (h : 2 ≤ cs.length) : pathParent cs = some cs.dropLast := by
  unfold pathParent
  rw [if_neg]
  rintro (h0 | h0) <;> (rw [h0] at h; simp at h)

/-- If the components of `s` end in two `Normal` components before the
final one, the decode closure succeeds and returns exactly the two
`file_name`s and the original string. -/
theorem decode_structure (s : String) (pre : List Component) (n v : String)
    (c : Component) (h : components s = pre ++ [Component.normal n, Component.normal v, c]) :
    decode s = some { name := n, version := v, location := some s } := by
  have hsplit : pre ++ [Component.normal n, Component.normal v, c]
      = (pre ++ [Component.normal n, Component.normal v]) ++ [c] := by simp
  have hsplit2 : pre ++ [Component.normal n, Component.normal v]
      = (pre ++ [Component.normal n]) ++ [Component.normal v] := by simp
  have hp1 : pathParent (components s)
      = some (pre ++ [Component.normal n, Component.normal v]) := by
    rw [h, hsplit, pathParent_of_concat _ (by simp), List.dropLast_concat]
  have hp2 : pathParent (pre ++ [Component.normal n, Component.normal v])
      = some (pre ++ [Component.normal n]) := by
    rw [hsplit2, pathParent_of_concat _ (by simp), List.dropLast_concat]
  have hp2b : pathParent (pre ++ [Component.normal n] ++ [Component.normal v])
      = some (pre ++ [Component.normal n]) := by
    rw [← hsplit2]
    exact hp2
  simp only [decode, hp1, hp2, hp2b, hsplit2, fileName_concat]

theorem startsWithPath_iff (s base : String) :
    startsWithPath s base = true ↔ ∃ t, components s = components base ++ t := by
  unfold startsWithPath
  simp only [ List.isPrefixOf_iff_prefix]
  constructor
  · rintro ⟨t, ht⟩
    exact ⟨t, ht.symm⟩
  · rintro ⟨t, ht⟩
    exact ⟨t, ht.symm⟩

theorem endsWithPath_types_iff (s : String) :
    endsWithPath s "types" = true
      ↔ (components s).getLast? = some (Component.normal "types") := by
  unfold endsWithPath
  have hc : components "types" = [Component.normal "types"] := by rfl
  rw [hc]
  simp only [ List.isSuffixOf_iff_suffix]
  constructor
  · rintro ⟨t, ht⟩
    rw [← ht, List.getLast?_concat]
  · intro h
    cases hl : components s with
    | nil => rw [hl] at h; simp at h
    | cons c0 cs =>
      rw [hl] at h
      have hne : c0 :: cs ≠ [] := by simp
      have hsplit := List.dropLast_concat_getLast hne
      have hval : (c0 :: cs).getLast hne = Component.normal "types" := by
        rw [List.getLast?_eq_getLast _ hne] at h
        exact Option.some.inj h
      rw [hval] at hsplit
      exact ⟨(c0 :: cs).dropLast, hsplit⟩

/-- Structure of a path accepted by the `list_enabled` filter: its
components end in two components (each a plain name or `..`) followed
by `types`. -/
theorem accepted_structure (tree s : String) (h : accepts tree s = true) :
    ∃ pre b a, components s = pre ++ [b, a, Component.normal "types"] ∧
      (b = Component.parentDir ∨ ∃ nb, b = Component.normal nb) ∧
      (a = Component.parentDir ∨ ∃ na, a = Component.normal na) := by
  have hsplit : isRelativePath s = true ∧ startsWithPath s (addonsMatcher tree) = true
      ∧ endsWithPath s "types" = true := by
    simpa [accepts, Bool.and_eq_true, and_assoc] using h
  obtain ⟨hrel, hsw, hew⟩ := hsplit
  have hroot : hasRootB s = false := by
    simpa [isRelativePath] using hrel
  obtain ⟨t, ht⟩ := (startsWithPath_iff s (addonsMatcher tree)).mp hsw
  have hlast : (components s).getLast? = some (Component.normal "types") :=
    (endsWithPath_types_iff s).mp hew
  obtain ⟨zs, hz⟩ := matcher_decomp tree
  have htne : t ≠ [] := by
    intro ht0
    rw [ht0, List.append_nil] at ht
    rw [ht, hz] at hlast
    rw [show zs ++ [Component.normal "lib", Component.normal "luarocks"]
        = (zs ++ [Component.normal "lib"]) ++ [Component.normal "luarocks"] by simp,
      List.getLast?_concat] at hlast
    exact absurd hlast (by decide)
  have htlen : 1 ≤ t.length := List.length_pos.mpr htne
  have hlen : 3 ≤ (components s).length := by
    rw [ht, hz]
    simp only [List.length_append, List.length_cons, List.length_nil]
    omega
  have hrevlen : 3 ≤ (components s).reverse.length := by simpa using hlen
  cases hr0 : (components s).reverse with
  | nil => rw [hr0] at hrevlen; simp at hrevlen
  | cons t1 r1 =>
    cases r1 with
    | nil => rw [hr0] at hrevlen; simp at hrevlen
    | cons a2 r2 =>
      cases r2 with
      | nil => rw [hr0] at hrevlen; simp at hrevlen
      | cons b2 rest =>
        have hcomps : components s = rest.reverse ++ [b2, a2, t1] := by
          have hrr := congrArg List.reverse hr0
          rw [List.reverse_reverse] at hrr
          rw [hrr]
          simp
        have ht1 : t1 = Component.normal "types" := by
          have hh : (components s).getLast? = some t1 := by
            rw [← List.head?_reverse, hr0]
            rfl
          rw [hlast] at hh
          exact (Option.some.inj hh).symm
        have hmem_comps : ∀ x ∈ ([b2, a2, t1] : List Component), x ∈ components s := by
          intro x hx
          rw [hcomps]
          exact List.mem_append_right _ hx
        have hnotroot : ∀ x ∈ ([b2, a2, t1] : List Component),
            x ≠ Component.rootDir := by
          intro x hx hxr
          exact rootDir_not_mem_components s hroot (hxr ▸ hmem_comps x hx)
        have htail : ∀ x, x ∈ (components s).tail → x ≠ Component.curDir := by
          intro x hx hxc
          exact curDir_not_mem_components_tail s (hxc ▸ hx)
        have ha2tail : a2 ∈ (components s).tail := by
          rw [hcomps]
          cases hpre : rest.reverse with
          | nil => simp
          | cons p pre' => simp
        have ha2 : a2 = Component.parentDir ∨ ∃ na, a2 = Component.normal na := by
          cases a2 with
          | rootDir => exact absurd rfl (hnotroot _ (by simp))
          | curDir => exact absurd rfl (htail _ ha2tail)
          | parentDir => exact Or.inl rfl
          | normal na => exact Or.inr ⟨na, rfl⟩
        have hb2 : b2 = Component.parentDir ∨ ∃ nb, b2 = Component.normal nb := by
          by_cases hpre : rest.reverse = []
          · -- the whole path is `[b2, a2, types]`; since it extends the
            -- matcher (which ends in `lib, luarocks`) by a non-empty tail,
            -- the matcher must be exactly `[lib, luarocks]`, so `b2 = lib`.
            rw [hpre, List.nil_append] at hcomps
            rw [hz] at ht
            have hlen3 : zs.length + 2 + t.length = 3 := by
              have := congrArg List.length ht
              rw [hcomps] at this
              simp only [List.length_append, List.length_cons, List.length_nil] at this
              omega
            have hzs : zs = [] := by
              have : zs.length = 0 := by omega
              exact List.length_eq_zero.mp this
            rw [hzs, List.nil_append] at ht
            rw [hcomps] at ht
            have hb2lib : b2 = Component.normal "lib" := by
              injection ht with h1 _
            exact Or.inr ⟨"lib", hb2lib⟩
          · have hb2tail : b2 ∈ (components s).tail := by
              rw [hcomps]
              cases hpre2 : rest.reverse with
              | nil => exact absurd hpre2 hpre
              | cons p pre' => simp
            cases b2 with
            | rootDir => exact absurd rfl (hnotroot _ (by simp))
            | curDir => exact absurd rfl (htail _ hb2tail)
            | parentDir => exact Or.inl rfl
            | normal nb => exact Or.inr ⟨nb, rfl⟩
        exact ⟨rest.reverse, b2, a2, ht1 ▸ hcomps, hb2, ha2⟩

/-! ## Claim C8 -/

/-- C8: the `accepts` predicate holds exactly for strings that are
relative paths (no root component), start with the component prefix
`{tree}/lib/luarocks`, and whose final path component equals `types`;
consequently it rejects absolute paths, paths outside the tree prefix,
and paths not ending in `types`. -/
theorem c8_accepts_characterization (tree s : String) :
    accepts tree s = true ↔
      ((components s).head? ≠ some Component.rootDir ∧
        (∃ t, components s = components (addonsMatcher tree) ++ t) ∧
        (components s).getLast? = some (Component.normal "types")) := by
  unfold accepts
  simp only [Bool.and_eq_true]
  constructor
  · rintro ⟨⟨h1, h2⟩, h3⟩
    refine ⟨?_, (startsWithPath_iff s _).mp h2, (endsWithPath_types_iff s).mp h3⟩
    intro hh
    have hr := (components_head_rootDir s).mp hh
    rw [isRelativePath, hr] at h1
    simp at h1
  · rintro ⟨h1, h2, h3⟩
    refine ⟨⟨?_, (startsWithPath_iff s _).mpr h2⟩, (endsWithPath_types_iff s).mpr h3⟩
    unfold isRelativePath
    cases hhr : hasRootB s with
    | false => rfl
    | true => exact absurd ((components_head_rootDir s).mpr hhr) h1

/-! ## Claim C9 -/

/-- C9 counterexample: the accepted path
`.lls_addons/lib/luarocks/../x/types` makes the decode closure panic
(the name directory terminates in `..`, so `file_name()` is `None` and
the `expect` fires), refuting "the expect calls are unreachable and
decode can only fail with the not-valid-UTF-8 error". -/
theorem c9_dotdot_counterexample :
    accepts ".lls_addons" ".lls_addons/lib/luarocks/../x/types" = true ∧
      decode ".lls_addons/lib/luarocks/../x/types" = none :=
  ⟨by decide, by rfl⟩

/-- C9 (amended): for every accepted path the two parent extractions
always succeed (an accepted path has at least two ancestors), and for
accepted paths containing no `..` component the file-name extractions
succeed as well, so `decode` cannot fail at all there (the UTF-8 branch
being unreachable for string input).  Accepted paths with a `..`
component can make a `file_name` `expect` panic, as the counterexample
shows. -/
theorem c9_parent_safety (tree s : String) (h : accepts tree s = true) :
    (∃ version, pathParent (components s) = some version ∧
      ∃ namedir, pathParent version = some namedir) ∧
    (Component.parentDir ∉ components s → ∃ a, decode s = some a) := by
  obtain ⟨pre, b, a, hcomps, hb, ha⟩ := accepted_structure tree s h
  have hsplit : pre ++ [b, a, Component.normal "types"]
      = (pre ++ [b, a]) ++ [Component.normal "types"] := by simp
  have hsplit2 : pre ++ [b, a] = (pre ++ [b]) ++ [a] := by simp
  constructor
  · refine ⟨pre ++ [b, a], ?_, pre ++ [b], ?_⟩
    · rw [hcomps, hsplit, pathParent_of_concat _ (by simp), List.dropLast_concat]
    · rw [hsplit2, pathParent_of_concat _ (by simp), List.dropLast_concat]
  · intro hnd
    have hbn : ∃ nb, b = Component.normal nb := by
      rcases hb with hb | hb
      · subst hb
        exact absurd (by rw [hcomps]; simp) hnd
      · exact hb
    have han : ∃ na, a = Component.normal na := by
      rcases ha with ha | ha
      · subst ha
        exact absurd (by rw [hcomps]; simp) hnd
      · exact ha
    obtain ⟨nb, rfl⟩ := hbn
    obtain ⟨na, rfl⟩ := han
    exact ⟨_, decode_structure s pre nb na _ hcomps⟩

/-- C9 witness: the amended theorem applied to a concrete accepted
path. -/
theorem c9_parent_safety_witness :
    ∃ version,
      pathParent (components ".lls_addons/lib/luarocks/say/1.4.1-3/types")
        = some version ∧ ∃ namedir, pathParent version = some namedir :=
  (c9_parent_safety ".lls_addons" ".lls_addons/lib/luarocks/say/1.4.1-3/types"
    (by decide)).1

/-! ## Claim C7 -/

/-- C7 counterexample: `.lls_addons/lib/luarocks/a/../types` is
accepted by the codec, but decode does not return the addon the claim
describes — it panics (the version directory terminates in `..`, so
`file_name()` is `None` and the `expect` fires). -/
theorem c7_dotdot_counterexample :
    accepts ".lls_addons" ".lls_addons/lib/luarocks/a/../types" = true ∧
      decode ".lls_addons/lib/luarocks/a/../types" = none :=
  ⟨by decide, by rfl⟩

/-- C7 (amended): for every accepted library entry with no `..`
component, decode returns the addon whose version is the last path
component of the entry's parent directory, whose name is the last
component of that parent's parent, and whose location is the original
entry string; and with tree `.lls_addons` the concrete settings
document of Scenario B lists exactly the addon
`say`/`1.4.1-3` at `.lls_addons/lib/luarocks/say/1.4.1-3/types`. -/
theorem c7_decode_fields :
    (∀ tree s, accepts tree s = true → Component.parentDir ∉ components s →
      ∃ a, decode s = some a ∧ a.location = some s ∧
        fileName ((components s).dropLast) = some a.version ∧
        fileName ((components s).dropLast.dropLast) = some a.name) ∧
    listEnabled ".lls_addons"
      (SettingsFile.doc [(LIB_SETTINGS_KEY,
        Json.arr [Json.str ".lls_addons/lib/luarocks/say/1.4.1-3/types"])]) none
      = .ok [{ name := "say", version := "1.4.1-3",
               location := some ".lls_addons/lib/luarocks/say/1.4.1-3/types" }] := by
  constructor
  · intro tree s h hnd
    obtain ⟨pre, b, a, hcomps, hb, ha⟩ := accepted_structure tree s h
    have hbn : ∃ nb, b = Component.normal nb := by
      rcases hb with hb | hb
      · subst hb
        exact absurd (by rw [hcomps]; simp) hnd
      · exact hb
    have han : ∃ na, a = Component.normal na := by
      rcases ha with ha | ha
      · subst ha
        exact absurd (by rw [hcomps]; simp) hnd
      · exact ha
    obtain ⟨nb, rfl⟩ := hbn
    obtain ⟨na, rfl⟩ := han
    have hsplit : pre ++ [Component.normal nb, Component.normal na,
        Component.normal "types"]
        = (pre ++ [Component.normal nb, Component.normal na])
          ++ [Component.normal "types"] := by simp
    have hsplit2 : pre ++ [Component.normal nb, Component.normal na]
        = (pre ++ [Component.normal nb]) ++ [Component.normal na] := by simp
    refine ⟨_, decode_structure s pre nb na _ hcomps, rfl, ?_, ?_⟩
    · rw [hcomps, hsplit, List.dropLast_concat, hsplit2, fileName_concat]
    · rw [hcomps, hsplit, List.dropLast_concat, hsplit2, List.dropLast_concat,
        fileName_concat]
  · rfl

/-- C7 witness: the amended theorem applied to a concrete accepted
entry. -/
theorem c7_decode_fields_witness :
    ∃ a, decode ".lls_addons/lib/luarocks/say/1.4.1-3/types" = some a ∧
      a.location = some ".lls_addons/lib/luarocks/say/1.4.1-3/types" ∧
      fileName ((components ".lls_addons/lib/luarocks/say/1.4.1-3/types").dropLast)
        = some a.version ∧
      fileName
          ((components ".lls_addons/lib/luarocks/say/1.4.1-3/types").dropLast.dropLast)
        = some a.name :=
  c7_decode_fields.1 ".lls_addons" ".lls_addons/lib/luarocks/say/1.4.1-3/types"
    (by decide) (by decide)

/-! ## Claim C4 -/

theorem string_mk_toList (s : String) : String.mk s.toList = s := by
  cases s
  rfl

/-- Components of `p/n/v/types` for plain segments `n`, `v` and a
non-empty head `p`: the components of `p` followed by the three
segments. -/
theorem components_append_seg3 (p n v : String) (hp : p.toList ≠ [])
    (hn : segOk n) (hv : segOk v) :
    components (p ++ "/" ++ n ++ "/" ++ v ++ "/types")
      = components p
        ++ [Component.normal n, Component.normal v, Component.normal "types"] := by
  obtain ⟨hn1, hn2, hn3, hn4⟩ := hn
  obtain ⟨hv1, hv2, hv3, hv4⟩ := hv
  have htl : (p ++ "/" ++ n ++ "/" ++ v ++ "/types").toList
      = p.toList ++ '/' :: (n.toList ++ '/' :: (v.toList ++ '/' :: "types".toList)) := by
    simp [String.toList]
  have hsplit : splitSlash (p ++ "/" ++ n ++ "/" ++ v ++ "/types").toList
      = splitSlash p.toList ++ ([n.toList] ++ ([v.toList] ++ ["types".toList])) := by
    rw [htl, splitSlash_append, splitSlash_append, splitSlash_append,
      splitSlash_no_slash n.toList hn2, splitSlash_no_slash v.toList hv2,
      splitSlash_no_slash "types".toList (by decide)]
  have hfilter : (splitSlash (p ++ "/" ++ n ++ "/" ++ v ++ "/types").toList).filter
        (fun q => q ≠ [])
      = (splitSlash p.toList).filter (fun q => q ≠ [])
        ++ [n.toList, v.toList, "types".toList] := by
    rw [hsplit, List.filter_append]
    congr 1
    rw [List.filter_append, List.filter_append]
    have hn1' : n.data ≠ [] := hn1
    have hv1' : v.data ≠ [] := hv1
    simp [hn1', hv1']
  have hroot : hasRootB (p ++ "/" ++ n ++ "/" ++ v ++ "/types") = hasRootB p := by
    unfold hasRootB
    rw [htl]
    cases hpl : p.toList with
    | nil => exact absurd hpl hp
    | cons c cs => simp
  have hmap : List.map toComp [n.toList, v.toList, "types".toList]
      = [Component.normal n, Component.normal v, Component.normal "types"] := by
    simp only [List.map_cons, List.map_nil]
    unfold toComp
    rw [if_neg hn4, if_neg hv4, if_neg (by decide)]
    rw [string_mk_toList, string_mk_toList]
    rfl
  unfold components
  rw [hroot, hfilter, normParts_append _ _ (by
      intro q hq
      simp only [List.mem_cons, List.not_mem_nil, or_false] at hq
      rcases hq with rfl | rfl | rfl
      · exact hn3
      · exact hv3
      · decide), hmap, List.append_assoc]

/-- C4 counterexample: the claim's composition
`decode(encode(decode(p)))` at the conforming path
`p = .lls_addons/lib/luarocks/say/1.4.1-3/types` appends `types` to
`decode(p).location` (which is `p` itself, already ending in `types`),
producing `.../types/types`, which decodes to the different identity
`{name: "1.4.1-3", version: "types"}`, so the round trip is not equal
to `decode(p)`. -/
theorem c4_double_types_counterexample :
    decode ".lls_addons/lib/luarocks/say/1.4.1-3/types"
      = some { name := "say", version := "1.4.1-3",
               location := some ".lls_addons/lib/luarocks/say/1.4.1-3/types" } ∧
    ((decode ".lls_addons/lib/luarocks/say/1.4.1-3/types").bind
        (fun a => (encodeAddonPath a).bind decode))
      = some { name := "1.4.1-3", version := "types",
               location := some ".lls_addons/lib/luarocks/say/1.4.1-3/types/types" } ∧
    ((decode ".lls_addons/lib/luarocks/say/1.4.1-3/types").bind
        (fun a => (encodeAddonPath a).bind decode))
      ≠ decode ".lls_addons/lib/luarocks/say/1.4.1-3/types" :=
  ⟨rfl, rfl, by decide⟩

/-- C4 (amended): for an accepted path `p = dir/n/v/types` with plain
segments `n`, `v`, decoding yields the addon `{n, v, p}`; encoding the
*installation directory* `dir/n/v` (the addon's location with the final
`types` segment stripped — not `decode(p)`'s own location, which is `p`
itself) reproduces `p` exactly, so decode∘encode on that addon has the
same identity as `decode(p)`. -/
theorem c4_roundtrip (tree p n v : String) (hn : segOk n) (hv : segOk v)
    (hacc : accepts tree (p ++ "/" ++ n ++ "/" ++ v ++ "/types") = true) :
    decode (p ++ "/" ++ n ++ "/" ++ v ++ "/types")
      = some { name := n, version := v,
               location := some (p ++ "/" ++ n ++ "/" ++ v ++ "/types") } ∧
    join_types (p ++ "/" ++ n ++ "/" ++ v) = p ++ "/" ++ n ++ "/" ++ v ++ "/types" ∧
    (decode (join_types (p ++ "/" ++ n ++ "/" ++ v))).map (fun a => (a.name, a.version))
      = (decode (p ++ "/" ++ n ++ "/" ++ v ++ "/types")).map
          (fun a => (a.name, a.version)) := by
  have hp : p.toList ≠ [] := by
    intro hpl
    have hro : hasRootB (p ++ "/" ++ n ++ "/" ++ v ++ "/types") = true := by
      unfold hasRootB
      have : (p ++ "/" ++ n ++ "/" ++ v ++ "/types").toList
          = p.toList ++ '/' :: (n.toList ++ '/' :: (v.toList ++ '/' :: "types".toList)) := by
        simp [String.toList]
      rw [this, hpl]
      rfl
    have : isRelativePath (p ++ "/" ++ n ++ "/" ++ v ++ "/types") = true := by
      unfold accepts at hacc
      simp only [Bool.and_eq_true] at hacc
      exact hacc.1.1
    rw [isRelativePath, hro] at this
    simp at this
  have hcomps := components_append_seg3 p n v hp hn hv
  have hdec : decode (p ++ "/" ++ n ++ "/" ++ v ++ "/types")
      = some { name := n, version := v,
               location := some (p ++ "/" ++ n ++ "/" ++ v ++ "/types") } :=
    decode_structure _ (components p) n v _ hcomps
  have hjoin : join_types (p ++ "/" ++ n ++ "/" ++ v)
      = p ++ "/" ++ n ++ "/" ++ v ++ "/types" := by
    obtain ⟨hv1, hv2, _, _⟩ := hv
    have htl2 : (p ++ "/" ++ n ++ "/" ++ v).toList
        = p.toList ++ '/' :: (n.toList ++ '/' :: v.toList) := by
      simp [String.toList]
    have hne : (p ++ "/" ++ n ++ "/" ++ v).toList ≠ [] := by
      rw [htl2]
      simp [hp]
    have hlastv : (p ++ "/" ++ n ++ "/" ++ v).toList.getLast? = v.toList.getLast? := by
      rw [htl2]
      rw [show p.toList ++ '/' :: (n.toList ++ '/' :: v.toList)
          = (p.toList ++ '/' :: n.toList ++ ['/']) ++ v.toList by simp]
      exact getLast?_append_ne _ _ hv1
    have hnod : (p ++ "/" ++ n ++ "/" ++ v).toList.getLast? ≠ some '/' := by
      rw [hlastv]
      intro hl
      exact hv2 (List.mem_of_getLast?_eq_some hl)
    unfold join_types
    rw [if_neg hne, if_neg hnod]
    apply String.ext
    simp [String.toList]
  refine ⟨hdec, hjoin, ?_⟩
  rw [hjoin]

/-- C4 witness: the amended theorem applied to the Scenario B path. -/
theorem c4_roundtrip_witness :
    decode (".lls_addons/lib/luarocks" ++ "/" ++ "say" ++ "/" ++ "1.4.1-3" ++ "/types")
      = some { name := "say", version := "1.4.1-3",
               location := some (".lls_addons/lib/luarocks" ++ "/" ++ "say" ++ "/"
                 ++ "1.4.1-3" ++ "/types") } ∧
    join_types (".lls_addons/lib/luarocks" ++ "/" ++ "say" ++ "/" ++ "1.4.1-3")
      = ".lls_addons/lib/luarocks" ++ "/" ++ "say" ++ "/" ++ "1.4.1-3" ++ "/types" ∧
    (decode (join_types (".lls_addons/lib/luarocks" ++ "/" ++ "say" ++ "/"
        ++ "1.4.1-3"))).map (fun a => (a.name, a.version))
      = (decode (".lls_addons/lib/luarocks" ++ "/" ++ "say" ++ "/" ++ "1.4.1-3"
          ++ "/types")).map (fun a => (a.name, a.version)) :=
  c4_roundtrip ".lls_addons" ".lls_addons/lib/luarocks" "say" "1.4.1-3"
    (by decide) (by decide) (by decide)

/-! ## Claim C2 -/

theorem filterMap_err_of_filter {E T : Type} (rs : List (Except E T)) :
    (rs.filter (not ∘ Except.isOk)).filterMap exceptErr
      = rs.filterMap exceptErr := by
  induction rs with
  | nil => rfl
  | cons r rs ih =>
    cases r with
    | ok t => simpa [Except.isOk, Except.toBool, exceptErr, Function.comp] using ih
    | error e => simpa [Except.isOk, Except.toBool, exceptErr, Function.comp] using ih

theorem filterMap_ok_of_filter {E T : Type} (rs : List (Except E T)) :
    (rs.filter Except.isOk).filterMap exceptOk = rs.filterMap exceptOk := by
  induction rs with
  | nil => rfl
  | cons r rs ih =>
    cases r with
    | ok t => simpa [Except.isOk, Except.toBool, exceptOk] using ih
    | error e => simpa [Except.isOk, Except.toBool, exceptOk] using ih

/-- `from_results` in terms of the order-preserving success and error
sub-sequences. -/
theorem from_results_eq {E T : Type} (rs : List (Except E T)) :
    from_results rs
      = match errsOf rs with
        | [] => .ok (oksOf rs)
        | [e] => .error (.single e)
        | es => .error (.aggregate es) := by
  unfold from_results errsOf oksOf
  simp only [List.partition_eq_filter_filter]
  rw [filterMap_err_of_filter]
  cases h : rs.filterMap exceptErr with
  | nil => simpa using filterMap_ok_of_filter rs
  | cons e es =>
    cases es with
    | nil => rfl
    | cons e2 es2 => rfl

/-- C2 counterexample: with the two failures `"a"` and `"b"`, the
collector produces an aggregate whose rendering is `"a\nb\n"` — each
rendering is followed by a newline, so the text is *not* the renderings
joined by newlines (`"a\nb"`) as the claim states. -/
theorem c2_display_counterexample :
    from_results (E := String) (T := Nat) [.error "a", .error "b"]
      = .error (.aggregate ["a", "b"]) ∧
    aggregate_display (fun e => e) ["a", "b"] = "a" ++ "\n" ++ ("b" ++ "\n" ++ "") ∧
    aggregate_display (fun e => e) ["a", "b"] ≠ joinNewlines ["a", "b"] :=
  ⟨rfl, rfl, by decide⟩

/-- C2 (amended): with zero failures the collector returns the
successes in original input order; with exactly one failure it returns
that error unwrapped (the `single` injection); with two or more
failures it returns a composite holding all failures in encountered
order, whose rendering is every underlying error's rendering joined by
newlines *followed by a trailing newline*, and whose designated cause
(`source()`) is the first underlying error. -/
theorem c2_collector {E T : Type} (render : E → String) (rs : List (Except E T)) :
    (errsOf rs = [] → from_results rs = .ok (oksOf rs)) ∧
    (∀ e, errsOf rs = [e] → from_results rs = .error (.single e)) ∧
    (∀ e1 e2 es, errsOf rs = e1 :: e2 :: es →
      from_results rs = .error (.aggregate (errsOf rs)) ∧
      aggregate_display render (errsOf rs)
        = joinNewlines ((errsOf rs).map render) ++ "\n" ∧
      aggregate_source (errsOf rs) = some e1) := by
  refine ⟨?_, ?_, ?_⟩
  · intro h
    rw [from_results_eq, h]
  · intro e h
    rw [from_results_eq, h]
  · intro e1 e2 es h
    have hdisp : ∀ l : List E, l ≠ [] →
        aggregate_display render l = joinNewlines (l.map render) ++ "\n" := by
      intro l
      induction l with
      | nil => intro hc; exact absurd rfl hc
      | cons x xs ih =>
        intro _
        cases xs with
        | nil =>
          show render x ++ "\n" ++ "" = render x ++ "\n"
          rw [String.append_empty]
        | cons y ys =>
          show render x ++ "\n" ++ aggregate_display render (y :: ys)
            = joinNewlines (List.map render (x :: y :: ys)) ++ "\n"
          rw [ih (by simp)]
          simp [joinNewlines, String.append_assoc]
    refine ⟨?_, hdisp _ (by rw [h]; simp), ?_⟩
    · rw [from_results_eq, h]
    · rw [h]
      rfl

/-- C2 witness: the amended theorem applied to concrete result lists
with zero, one, and two failures. -/
theorem c2_collector_witness :
    from_results (E := String) (T := Nat) [.ok 1, .ok 2] = .ok [1, 2] ∧
    from_results (E := String) (T := Nat) [.ok 1, .error "x"]
      = .error (.single "x") ∧
    from_results (E := String) (T := Nat) [.error "a", .ok 1, .error "b"]
      = .error (.aggregate ["a", "b"]) ∧
    aggregate_display (fun e => e) ["a", "b"] = joinNewlines ["a", "b"] ++ "\n" ∧
    aggregate_source (E := String) ["a", "b"] = some "a" := by
  have h0 := (c2_collector (E := String) (T := Nat) (fun e => e) [.ok 1, .ok 2]).1 rfl
  have h1 := (c2_collector (E := String) (T := Nat) (fun e => e)
    [.ok 1, .error "x"]).2.1 "x" rfl
  have h2 := (c2_collector (E := String) (T := Nat) (fun e => e)
    [.error "a", .ok 1, .error "b"]).2.2 "a" "b" [] rfl
  exact ⟨h0, h1, h2.1, h2.2.1, h2.2.2⟩

/-! ## Claim C6 -/

/-- C6: `list_enabled` returns the empty list without error when the
settings file is missing, when it is empty, and when the parsed
document has no recognized library field; and every error it can
return (panics modelling process aborts aside) comes from a malformed
file, a document whose recognized field fails to deserialize, or a
non-NotFound I/O failure. -/
theorem c6_empty_states (tree : String) :
    (∀ flt, listEnabled tree .missing flt = .ok []) ∧
    (∀ flt, listEnabled tree .empty flt = .ok []) ∧
    (∀ flt fields, List.lookup LIB_SETTINGS_KEY fields = none →
      listEnabled tree (.doc fields) flt = .ok []) ∧
    (∀ flt, listEnabled tree .malformed flt = .error .parseError) ∧
    (∀ flt, listEnabled tree .ioError flt = .error .ioError) ∧
    (∀ file flt e, listEnabled tree file flt = .error e → (∀ m, e ≠ .panic m) →
      file = .malformed ∨ file = .ioError ∨
        ∃ fields, file = .doc fields ∧ parseSettings fields = .error e) := by
  refine ⟨fun _ => rfl, fun _ => rfl, ?_, fun _ => rfl, fun _ => rfl, ?_⟩
  · intro flt fields h
    simp only [listEnabled, parseSettings, h, parseLibraryField]
  · intro file flt e h hnp
    cases file with
    | missing => exact absurd h (by simp [listEnabled])
    | empty => exact absurd h (by simp [listEnabled])
    | malformed => exact Or.inl rfl
    | ioError => exact Or.inr (Or.inl rfl)
    | doc fields =>
      refine Or.inr (Or.inr ⟨fields, rfl, ?_⟩)
      simp only [listEnabled] at h
      cases hp : parseSettings fields with
      | error e' =>
        simp only [hp] at h
        rw [Except.error.inj h]
      | ok st =>
        simp only [hp] at h
        cases hl : st.library with
        | none =>
          simp only [hl] at h
          exact Except.noConfusion h
        | some lib =>
          simp only [hl, listFromLibrary] at h
          cases hd : decodeAll (lib.filter (fun s => accepts tree s)) with
          | none =>
            simp only [hd] at h
            have he : PErr.panic "directory starts with addons_matcher" = e :=
              Except.error.inj h
            exact absurd he.symm (hnp _)
          | some addons =>
            simp only [hd] at h
            exact Except.noConfusion h

/-- C6 witness: the theorem applied to a concrete document without the
recognized field. -/
theorem c6_empty_states_witness :
    listEnabled ".lls_addons"
      (SettingsFile.doc [("editor.fontSize", Json.num 12)]) none = .ok [] :=
  (c6_empty_states ".lls_addons").2.2.1 none [("editor.fontSize", Json.num 12)] rfl

/-! ## Claim C5 -/

theorem lookup_filter_ne (k : String) (fields : List (String × Json))
    (hk : k ≠ LIB_SETTINGS_KEY) :
    List.lookup k (fields.filter (fun kv => kv.1 != LIB_SETTINGS_KEY))
      = List.lookup k fields := by
  induction fields with
  | nil => rfl
  | cons kv rest ih =>
    obtain ⟨k1, v1⟩ := kv
    by_cases h1 : k1 = LIB_SETTINGS_KEY
    · subst h1
      have hne : (k == LIB_SETTINGS_KEY) = false := beq_eq_false_iff_ne.mpr hk
      simp only [List.filter, List.lookup, bne_self_eq_false, hne]
      exact ih
    · have hbne : (k1 != LIB_SETTINGS_KEY) = true := bne_iff_ne.mpr h1
      simp only [List.filter, List.lookup, hbne]
      cases hkk : k == k1 with
      | true => simp only [List.lookup, hkk]
      | false =>
        simp only [List.lookup, hkk]
        exact ih

/-- C5: an update cycle on a parsed settings document (load, replace
the recognized library field, serialize) preserves the value of every
other field: looking any non-recognized key up in the written document
gives exactly its value in the original document (field order may
differ, but no field is altered or dropped). -/
theorem c5_frame_preservation (fields : List (String × Json))
    (f : List String → List String) (out : List (String × Json))
    (h : update_library (.doc fields) f = .ok out)
    (k : String) (hk : k ≠ LIB_SETTINGS_KEY) :
    List.lookup k out = List.lookup k fields := by
  simp only [update_library] at h
  cases hp : parseSettings fields with
  | error e => rw [hp] at h; cases h
  | ok st =>
    rw [hp] at h
    cases h
    have hrest : st.rest = fields.filter (fun kv => kv.1 != LIB_SETTINGS_KEY) := by
      simp only [parseSettings] at hp
      cases hpl : parseLibraryField (List.lookup LIB_SETTINGS_KEY fields) with
      | error e => rw [hpl] at hp; cases hp
      | ok lib => rw [hpl] at hp; cases hp; rfl
    have hne : (k == LIB_SETTINGS_KEY) = false := beq_eq_false_iff_ne.mpr hk
    simp only [serializeSettings, List.lookup, hne]
    rw [hrest]
    exact lookup_filter_ne k fields hk

/-- C5 witness: the theorem applied to a concrete document with two
unrelated fields. -/
theorem c5_frame_preservation_witness :
    List.lookup "editor.fontSize"
        [(LIB_SETTINGS_KEY, Json.arr [Json.str "p"]),
         ("editor.fontSize", Json.num 12), ("z", Json.str "keep")]
      = List.lookup "editor.fontSize"
        [("editor.fontSize", Json.num 12),
         (LIB_SETTINGS_KEY, Json.arr []), ("z", Json.str "keep")] :=
  c5_frame_preservation
    [("editor.fontSize", Json.num 12),
     (LIB_SETTINGS_KEY, Json.arr []), ("z", Json.str "keep")]
    (fun l => l ++ ["p"])
    [(LIB_SETTINGS_KEY, Json.arr [Json.str "p"]),
     ("editor.fontSize", Json.num 12), ("z", Json.str "keep")]
    rfl "editor.fontSize" (by decide)

/-! ## Claim C10 -/

/-- C10: whenever the settings update path succeeds, the written
document contains the recognized `Lua.workspace.library` field holding
a string array; and when the input state lacked the field (missing or
empty file, or document without the key), the written field holds the
updater applied to the empty list — the field is never absent from the
output. -/
theorem c10_library_field_present (file : SettingsFile)
    (f : List String → List String) (out : List (String × Json))
    (h : update_library file f = .ok out) :
    (∃ l : List String,
      List.lookup LIB_SETTINGS_KEY out = some (Json.arr (l.map Json.str))) ∧
    (libFieldAbsent file →
      List.lookup LIB_SETTINGS_KEY out = some (Json.arr ((f []).map Json.str))) := by
  cases file with
  | missing =>
    cases h
    refine ⟨⟨f [], ?_⟩, fun _ => ?_⟩ <;> simp [serializeSettings, List.lookup]
  | empty =>
    cases h
    refine ⟨⟨f [], ?_⟩, fun _ => ?_⟩ <;> simp [serializeSettings, List.lookup]
  | malformed => exact Except.noConfusion h
  | ioError => exact Except.noConfusion h
  | doc fields =>
    simp only [update_library] at h
    cases hp : parseSettings fields with
    | error e =>
      simp only [hp] at h
      exact Except.noConfusion h
    | ok st =>
      simp only [hp] at h
      cases h
      refine ⟨⟨f (st.library.getD []), by simp [serializeSettings, List.lookup]⟩, ?_⟩
      intro habs
      have hlib : st.library = none := by
        simp only [parseSettings] at hp
        have habs' : List.lookup LIB_SETTINGS_KEY fields = none := habs
        rw [habs'] at hp
        simp only [parseLibraryField] at hp
        cases hp
        rfl
      rw [hlib]
      simp [serializeSettings, List.lookup]

/-- C10 witness: the theorem applied to a missing settings file. -/
theorem c10_library_field_present_witness :
    List.lookup LIB_SETTINGS_KEY [(LIB_SETTINGS_KEY, Json.arr [Json.str "p"])]
      = some (Json.arr ((["p"] : List String).map Json.str)) :=
  (c10_library_field_present .missing (fun l => l ++ ["p"])
    [(LIB_SETTINGS_KEY, Json.arr [Json.str "p"])] rfl).2 trivial

/-! ## Claim C3 -/

theorem containsSub_self (xs : List Char) : containsSub xs xs = true := by
  have h : xs.isPrefixOf xs = true := by
    induction xs with
    | nil => rfl
    | cons c cs ih => simp only [List.isPrefixOf, beq_self_eq_true, Bool.true_and, ih]
  unfold containsSub
  rw [h, Bool.true_or]

theorem decodeAll_mem {ss : List String} {l : List Addon}
    (h : decodeAll ss = some l) {s : String} {a : Addon}
    (hs : s ∈ ss) (hd : decode s = some a) : a ∈ l := by
  induction ss generalizing l with
  | nil => cases hs
  | cons s0 ss ih =>
    simp only [decodeAll] at h
    cases hd0 : decode s0 with
    | none => rw [hd0] at h; exact Option.noConfusion h
    | some a0 =>
      rw [hd0] at h
      cases hrest : decodeAll ss with
      | none => rw [hrest] at h; exact Option.noConfusion h
      | some l' =>
        rw [hrest] at h
        have hl : a0 :: l' = l := Option.some.inj h
        rcases List.mem_cons.mp hs with rfl | hs'
        · have ha0 : a = a0 := by
            rw [hd] at hd0
            exact Option.some.inj hd0
          rw [← hl, ha0]
          exact List.mem_cons_self a0 l'
        · rw [← hl]
          exact List.mem_cons_of_mem a0 (ih hrest hs')

theorem decodeAll_mem_src {ss : List String} {l : List Addon}
    (h : decodeAll ss = some l) {a : Addon} (ha : a ∈ l) :
    ∃ s ∈ ss, decode s = some a := by
  induction ss generalizing l with
  | nil =>
    simp only [decodeAll] at h
    rw [← Option.some.inj h] at ha
    cases ha
  | cons s0 ss ih =>
    simp only [decodeAll] at h
    cases hd0 : decode s0 with
    | none => rw [hd0] at h; exact Option.noConfusion h
    | some a0 =>
      rw [hd0] at h
      cases hrest : decodeAll ss with
      | none => rw [hrest] at h; exact Option.noConfusion h
      | some l' =>
        rw [hrest] at h
        have hl : a0 :: l' = l := Option.some.inj h
        rw [← hl] at ha
        rcases List.mem_cons.mp ha with rfl | ha'
        · exact ⟨s0, List.mem_cons_self s0 ss, hd0⟩
        · obtain ⟨s, hsm, hsd⟩ := ih hrest ha'
          exact ⟨s, List.mem_cons_of_mem s0 hsm, hsd⟩

theorem decodeAll_concat {ss : List String} {l : List Addon} {p : String} {a : Addon}
    (h : decodeAll ss = some l) (hp : decode p = some a) :
    decodeAll (ss ++ [p]) = some (l ++ [a]) := by
  induction ss generalizing l with
  | nil =>
    simp only [decodeAll] at h
    rw [← Option.some.inj h]
    simp [decodeAll, hp]
  | cons s0 ss ih =>
    rw [List.cons_append]
    simp only [decodeAll] at h ⊢
    cases hd0 : decode s0 with
    | none => rw [hd0] at h; exact Option.noConfusion h
    | some a0 =>
      simp only [hd0] at h ⊢
      cases hrest : decodeAll ss with
      | none => simp only [hrest] at h; exact Option.noConfusion h
      | some l' =>
        simp only [hrest, Option.map_some'] at h
        rw [ih hrest, ← Option.some.inj h]
        simp

/-- C3 counterexample: with an installed-registry location that does
not lie under the tree (`"foo"`), the enabled path `foo/types` is not
accepted by the codec, so a second `enable` does not see the addon as
enabled and appends the path again — `enable` is not idempotent as
claimed. -/
theorem c3_enable_not_idempotent :
    enableL ".lls_addons" [{ name := "say", version := "1.0", location := some "foo" }]
        [] "say" = .ok ["foo/types"] ∧
    enableL ".lls_addons" [{ name := "say", version := "1.0", location := some "foo" }]
        ["foo/types"] "say" = .ok ["foo/types", "foo/types"] ∧
    (["foo/types", "foo/types"] : List String) ≠ ["foo/types"] :=
  ⟨rfl, rfl, by decide⟩

/-- C3 (amended): given that listing the current library succeeds,
`enable` (i) returns the list unchanged when an addon named `name` is
decoded from some accepted entry; otherwise (ii) it fails with the
not-installed error when the registry lookup has no addon with that
exact name, and (iii) appends the encoded path of the resolved addon as
the last element, preserving the existing order; calling `enable` again
then yields the same list *provided* the encoded path is accepted by
the codec and decodes back to an addon named `name` (as holds for
conforming installation locations `{tree}/lib/luarocks/{name}/{ver}`);
for a non-conforming location the second call appends a duplicate, as
the counterexample shows. -/
theorem c3_enable (tree : String) (lookup : List Addon) (library : List String)
    (name : String) (addons : List Addon)
    (hls : listFromLibrary tree library (some name) = .ok addons) :
    ((∃ s ∈ library, accepts tree s = true ∧ ∃ a, decode s = some a ∧ a.name = name) →
      enableL tree lookup library name = .ok library) ∧
    ((∀ s ∈ library, accepts tree s = true → ∀ a, decode s = some a → a.name ≠ name) →
      (lookup.find? (fun a => a.name == name) = none →
        enableL tree lookup library name = .error (.notInstalled name)) ∧
      (∀ ad loc, lookup.find? (fun a => a.name == name) = some ad →
        ad.location = some loc →
        enableL tree lookup library name = .ok (library ++ [join_types loc]) ∧
        (accepts tree (join_types loc) = true →
          ∀ a2, decode (join_types loc) = some a2 → a2.name = name →
            enableL tree lookup (library ++ [join_types loc]) name
              = .ok (library ++ [join_types loc])))) := by
  have hls' := hls
  simp only [listFromLibrary] at hls'
  cases hdec : decodeAll (library.filter (fun s => accepts tree s)) with
  | none =>
    rw [hdec] at hls'
    exact Except.noConfusion hls'
  | some l =>
    rw [hdec] at hls'
    have haddons : addons = applyNameFilter (some name) l := (Except.ok.inj hls').symm
    constructor
    · rintro ⟨s, hsmem, hsacc, a, hsdec, hname⟩
      have hsf : s ∈ library.filter (fun s => accepts tree s) :=
        List.mem_filter.mpr ⟨hsmem, hsacc⟩
      have hal : a ∈ l := decodeAll_mem hdec hsf hsdec
      have haf : a ∈ addons := by
        rw [haddons]
        simp only [applyNameFilter]
        refine List.mem_filter.mpr ⟨hal, ?_⟩
        rw [hname]
        exact containsSub_self _
      have hany : addons.any (fun a => a.name == name) = true :=
        List.any_eq_true.mpr ⟨a, haf, by simp [hname]⟩
      simp [enableL, hls, hany]
    · intro hnone
      have hanyf : addons.any (fun a => a.name == name) = false := by
        rw [List.any_eq_false]
        intro a haf
        rw [haddons] at haf
        simp only [applyNameFilter] at haf
        have hal : a ∈ l := (List.mem_filter.mp haf).1
        obtain ⟨s, hsm, hsd⟩ := decodeAll_mem_src hdec hal
        have hsmem : s ∈ library := (List.mem_filter.mp hsm).1
        have hsacc : accepts tree s = true := (List.mem_filter.mp hsm).2
        have hne := hnone s hsmem hsacc a hsd
        simp only [beq_iff_eq]
        exact hne
      refine ⟨?_, ?_⟩
      · intro hfind
        simp [enableL, hls, hanyf, get_addon_path, hfind]
      · intro ad loc hfind hloc
        have henable : enableL tree lookup library name
            = .ok (library ++ [join_types loc]) := by
          simp [enableL, hls, hanyf, get_addon_path, hfind, hloc, enable_in_library]
        refine ⟨henable, ?_⟩
        intro hacc2 a2 hdec2 hname2
        have hfilter2 : (library ++ [join_types loc]).filter (fun s => accepts tree s)
            = library.filter (fun s => accepts tree s) ++ [join_types loc] := by
          rw [List.filter_append]
          congr 1
          simp [hacc2]
        have hdecAll2 : decodeAll ((library ++ [join_types loc]).filter
            (fun s => accepts tree s)) = some (l ++ [a2]) := by
          rw [hfilter2]
          exact decodeAll_concat hdec hdec2
        have hls2 : listFromLibrary tree (library ++ [join_types loc]) (some name)
            = .ok (applyNameFilter (some name) (l ++ [a2])) := by
          unfold listFromLibrary
          rw [hdecAll2]
        have ha2mem : a2 ∈ applyNameFilter (some name) (l ++ [a2]) := by
          simp only [applyNameFilter]
          refine List.mem_filter.mpr ⟨by simp, ?_⟩
          rw [hname2]
          exact containsSub_self _
        have hany2 : (applyNameFilter (some name) (l ++ [a2])).any
            (fun a => a.name == name) = true :=
          List.any_eq_true.mpr ⟨a2, ha2mem, by simp [hname2]⟩
        simp [enableL, hls2, hany2]

/-- C3 witness: the amended theorem applied to a conforming registry
response resolving `say` under the tree. -/
theorem c3_enable_witness :
    enableL ".lls_addons"
        [{ name := "say", version := "1.4.1-3",
           location := some ".lls_addons/lib/luarocks/say/1.4.1-3" }] [] "say"
      = .ok ([] ++ [join_types ".lls_addons/lib/luarocks/say/1.4.1-3"]) ∧
    enableL ".lls_addons"
        [{ name := "say", version := "1.4.1-3",
           location := some ".lls_addons/lib/luarocks/say/1.4.1-3" }]
        ([] ++ [join_types ".lls_addons/lib/luarocks/say/1.4.1-3"]) "say"
      = .ok ([] ++ [join_types ".lls_addons/lib/luarocks/say/1.4.1-3"]) := by
  have h := ((c3_enable ".lls_addons"
      [{ name := "say", version := "1.4.1-3",
         location := some ".lls_addons/lib/luarocks/say/1.4.1-3" }] [] "say" [] rfl).2
    (by intro s hs; cases hs)).2
    { name := "say", version := "1.4.1-3",
      location := some ".lls_addons/lib/luarocks/say/1.4.1-3" }
    ".lls_addons/lib/luarocks/say/1.4.1-3" rfl rfl
  exact ⟨h.1, h.2 (by decide)
    { name := "say", version := "1.4.1-3",
      location := some (join_types ".lls_addons/lib/luarocks/say/1.4.1-3") }
    rfl rfl⟩

/-! ## Claim C1 -/

/-- C1: evaluation of the code at the failing input.  The source's
`disable` guard is `any(|addon| addon.name != name)` — inverted with
respect to its own log message ("addon is already disabled") and to the
spec.  With the conforming registry resolving `say` and a library that
already lists the differently-named addon `saymore`, `enable("say")`
appends the `say` path, but the following `disable("say")` is a no-op
(the guard fires because `saymore`'s name differs from `say`), so
`disable(enable(L, "say"))` is `L ++ [say path]`, not `L`: `disable` is
not the left inverse of `enable`. -/
theorem c1_disable_not_left_inverse :
    enableL ".lls_addons"
        [{ name := "say", version := "1.4.1-3",
           location := some ".lls_addons/lib/luarocks/say/1.4.1-3" }]
        [".lls_addons/lib/luarocks/saymore/1.0-1/types"] "say"
      = .ok [".lls_addons/lib/luarocks/saymore/1.0-1/types",
             ".lls_addons/lib/luarocks/say/1.4.1-3/types"] ∧
    disableL ".lls_addons"
        [{ name := "say", version := "1.4.1-3",
           location := some ".lls_addons/lib/luarocks/say/1.4.1-3" }]
        [".lls_addons/lib/luarocks/saymore/1.0-1/types",
         ".lls_addons/lib/luarocks/say/1.4.1-3/types"] "say"
      = .ok [".lls_addons/lib/luarocks/saymore/1.0-1/types",
             ".lls_addons/lib/luarocks/say/1.4.1-3/types"] ∧
    ([".lls_addons/lib/luarocks/saymore/1.0-1/types",
      ".lls_addons/lib/luarocks/say/1.4.1-3/types"] : List String)
      ≠ [".lls_addons/lib/luarocks/saymore/1.0-1/types"] :=
  ⟨rfl, rfl, by decide⟩

end Llynx
